import Mathlib

/-!
Verification of the splop crate (src/src/lib.rs): the `SkipFirst` gate and
the `WithStatus` iterator wrapper with its `Status` descriptor.

Rust iterators are modelled as explicit step functions on a state type:
`Iter σ α` carries `next : σ → Option α × σ`.  `std::iter::Peekable` is
modelled by `PeekState` (the `peeked : Option (Option α)` slot plus the
underlying state) together with `peekNext` / `peekPeek`, which mirror the
standard library `Peekable::next` and `Peekable::peek`.  Side-effecting
closures are modelled as state transformers (or `Except`-valued
transformers where a raised error matters).
-/

/-- A sequence producer: a pure step function on an explicit state,
modelling the Rust `Iterator::next` (`None` signals exhaustion). -/
structure Iter (σ : Type) (α : Type) where
  next : σ → Option α × σ

/-- The state of `std::iter::Peekable<I>`: the one-element look-ahead slot
`peeked : Option (Option item)` plus the state of the underlying iterator. -/
structure PeekState (σ : Type) (α : Type) where
  peeked : Option (Option α)
  state : σ

/-- Model of `Peekable::next`: take the buffered answer if present, else pull from
the underlying iterator. -/
def peekNext (it : Iter σ α) : PeekState σ α → Option α × PeekState σ α
  | ⟨some v, s⟩ => (v, ⟨none, s⟩)
  | ⟨none, s⟩ => ((it.next s).1, ⟨none, (it.next s).2⟩)

/-- Model of `Peekable::peek`: fill the buffer from the underlying iterator if it is
empty, and report the buffered answer. -/
def peekPeek (it : Iter σ α) : PeekState σ α → Option α × PeekState σ α
  | ⟨some v, s⟩ => (v, ⟨some v, s⟩)
  | ⟨none, s⟩ => ((it.next s).1, ⟨some (it.next s).1, (it.next s).2⟩)

/-- Struct `Status` from src/src/lib.rs: the two stored booleans. -/
structure Status where
  first : Bool
  last : Bool
deriving DecidableEq, Repr

/-- Source `Status::is_first`. -/
def Status.is_first (s : Status) : Bool := s.first

/-- Source `Status::is_first_only`. -/
def Status.is_first_only (s : Status) : Bool := s.first && !s.last

/-- Source `Status::is_last`. -/
def Status.is_last (s : Status) : Bool := s.last

/-- Source `Status::is_last_only`. -/
def Status.is_last_only (s : Status) : Bool := s.last && !s.first

/-- Source `Status::is_in_between`. -/
def Status.is_in_between (s : Status) : Bool := !s.first && !s.last

/-- Struct `WithStatus` from src/src/lib.rs: a peekable over the wrapped iterator
plus the `first` flag. -/
structure WithStatus (σ : Type) (α : Type) where
  iter : PeekState σ α
  first : Bool

/-- Source `WithStatus::new` (also `IterStatusExt::with_status`): wrap the iterator
in a peekable (buffer unprimed) and set `first := true`.  No element is
pulled from the underlying iterator. -/
def WithStatus.new (s0 : σ) : WithStatus σ α := ⟨⟨none, s0⟩, true⟩

/-- Source `WithStatus::next` (the `Iterator` impl): pull the next item, peek to decide
`last`, build the status from the pre-update `first` flag, then clear the
flag.  Mirrors src/src/lib.rs lines 111-127. -/
def WithStatus.next (it : Iter σ α) (w : WithStatus σ α) :
    Option (α × Status) × WithStatus σ α :=
  let item := (peekNext it w.iter).1
  let ps1 := (peekNext it w.iter).2
  let status : Status := ⟨w.first, ((peekPeek it ps1).1).isNone⟩
  (item.map (fun elem => (elem, status)),
   ⟨(peekPeek it ps1).2, if w.first then false else w.first⟩)

/-- The list-backed iterator: the canonical finite sequence producer. -/
def listIter : Iter (List α) α :=
  ⟨fun l =>
    match l with
    | [] => (none, [])
    | x :: xs => (some x, xs)⟩

/-- Run the wrapper for at most `fuel` steps, collecting the yielded pairs
until the first exhausted answer. -/
def runFuel (it : Iter σ α) : Nat → WithStatus σ α → List (α × Status)
  | 0, _ => []
  | fuel + 1, w =>
    match WithStatus.next it w with
    | (none, _) => []
    | (some p, w1) => p :: runFuel it fuel w1

/-- All pairs yielded by `with_status` over a finite list (fuel
`l.length + 1` is enough: after `l.length` yields the wrapper is
exhausted). -/
def withStatusList (l : List α) : List (α × Status) :=
  runFuel listIter (l.length + 1) (WithStatus.new l)

/-- Closed form of the wrapper output from a primed buffer: `b` is the
pending `first` flag, `x` the buffered element, `xs` the rest. -/
def tagFrom (b : Bool) (x : α) : List α → List (α × Status)
  | [] => [(x, ⟨b, true⟩)]
  | y :: ys => (x, ⟨b, false⟩) :: tagFrom false y ys

/-- Struct `SkipFirst` from src/src/lib.rs: the single `first` flag. -/
structure SkipFirst where
  first : Bool
deriving DecidableEq, Repr

/-- Source `SkipFirst::new`: the next call is the first, so it will be skipped. -/
def SkipFirst.new : SkipFirst := ⟨true⟩

/-- Source `SkipFirst::skip_first` with the side-effecting closure modelled as a
state transformer on an environment `τ`: on the first call flip the flag
and do not run `f`; afterwards run `f`.  Mirrors src/src/lib.rs
lines 83-89. -/
def SkipFirst.skip_first (g : SkipFirst) (f : τ → τ) (env : τ) : SkipFirst × τ :=
  if g.first then (⟨false⟩, env) else (g, f env)

/-- Source `SkipFirst::skip_first` with a fallible closure (a raised error is an
`Except.error`): the same branch structure as the source — on the first
call the closure is never invoked, so the call trivially succeeds. -/
def SkipFirst.skip_first_exc (g : SkipFirst) (f : τ → Except ε τ) (env : τ) :
    SkipFirst × Except ε τ :=
  if g.first then (⟨false⟩, Except.ok env) else (g, f env)

/-- Run a sequence of `skip_first` calls on one gate, threading the gate
state and the environment. -/
def runSkips (g : SkipFirst) : List (τ → τ) → τ → SkipFirst × τ
  | [], env => (g, env)
  | f :: rest, env =>
    let r := g.skip_first f env
    runSkips r.1 rest r.2

/-- Run an interleaved sequence of `skip_first` calls on two independent
gates: a call tagged `true` goes to the first gate, `false` to the
second; both calls mutate the shared environment. -/
def runTwo (a b : SkipFirst) : List (Bool × (τ → τ)) → τ → SkipFirst × SkipFirst × τ
  | [], env => (a, b, env)
  | c :: rest, env =>
    if c.1 then
      let r := a.skip_first c.2 env
      runTwo r.1 b rest r.2
    else
      let r := b.skip_first c.2 env
      runTwo a r.1 rest r.2

/-- Apply a list of effects to the environment, in order. -/
def applyAll : List (τ → τ) → τ → τ
  | [], env => env
  | f :: rest, env => applyAll rest (f env)

/-- Remove the first call carrying the given tag (the call a fresh gate
suppresses), keeping everything else in order. -/
def dropFirstTagged (tag : Bool) : List (Bool × β) → List (Bool × β)
  | [] => []
  | c :: rest => if c.1 = tag then rest else c :: dropFirstTagged tag rest

/-- Instrument an iterator with a pull counter: the second state component
counts how many times the underlying `next` has been invoked. -/
def counted (it : Iter σ α) : Iter (σ × Nat) α :=
  ⟨fun s => ((it.next s.1).1, ((it.next s.1).2, s.2 + 1))⟩

/-- The wrapper state after `k` calls to `next`. -/
def nthState (it : Iter σ α) (w : WithStatus σ α) : Nat → WithStatus σ α
  | 0 => w
  | k + 1 => (WithStatus.next it (nthState it w k)).2

/-- A non-fused producer: it signals exhaustion on its first pull and then
produces `7` on the second pull. -/
def resurrecting : Iter Nat Nat :=
  ⟨fun n => if n = 0 then (none, 1) else if n = 1 then (some 7, 2) else (none, n + 1)⟩

/-- A fused producer: once a pull answers `none`, the pull from the
successor state answers `none` as well (the Rust `FusedIterator`
contract). -/
def Fused (it : Iter σ α) : Prop :=
  ∀ s : σ, (it.next s).1 = none → (it.next (it.next s).2).1 = none

/-- Whenever the look-ahead slot holds the exhaustion marker, the
underlying iterator really is exhausted at the buffered state.  This holds
at construction and is preserved by `next` over a fused iterator. -/
def peekedInv (it : Iter σ α) (ps : PeekState σ α) : Prop :=
  ps.peeked = some none → (it.next ps.state).1 = none

/-- Look-ahead invariant taken from the wording of the spec, stated over the
list-backed model:
the buffer holds the next unconsumed element if one exists, and is empty
only when the underlying sequence is exhausted. -/
def bufferInvariant : PeekState (List α) α → Prop
  | ⟨none, []⟩ => True
  | ⟨none, _ :: _⟩ => False
  | ⟨some none, []⟩ => True
  | ⟨some none, _ :: _⟩ => False
  | ⟨some (some _), _⟩ => True

/-- Exact `size_hint` of the list-backed iterator. -/
def listHint (l : List α) : Nat × Option Nat := (l.length, some l.length)

/-- Model of `Peekable::size_hint`: one extra for a buffered element, `(0, 0)` once
the buffered answer is the exhaustion marker, pass-through otherwise. -/
def peekSizeHint (hint : σ → Nat × Option Nat) : PeekState σ α → Nat × Option Nat
  | ⟨some none, _⟩ => (0, some 0)
  | ⟨some (some _), s⟩ => ((hint s).1 + 1, (hint s).2.map (· + 1))
  | ⟨none, s⟩ => hint s

/-- Source `WithStatus::size_hint` (the `Iterator` impl): delegates to the inner peekable
unchanged (src/src/lib.rs lines 129-133). -/
def WithStatus.sizeHint (hint : σ → Nat × Option Nat) (w : WithStatus σ α) :
    Nat × Option Nat :=
  peekSizeHint hint w.iter

/-- Source `WithStatus::len` (the `ExactSizeIterator` impl): delegates to the inner
peekable `len`, which is the lower size-hint bound
(src/src/lib.rs lines 138-142). -/
def WithStatus.len (hint : σ → Nat × Option Nat) (w : WithStatus σ α) : Nat :=
  (peekSizeHint hint w.iter).1

theorem peekNext_some (it : Iter σ α) (v : Option α) (s : σ) :
    peekNext it ⟨some v, s⟩ = (v, ⟨none, s⟩) := rfl

theorem peekNext_none (it : Iter σ α) (s : σ) :
    peekNext it ⟨none, s⟩ = ((it.next s).1, ⟨none, (it.next s).2⟩) := rfl

theorem peekPeek_none (it : Iter σ α) (s : σ) :
    peekPeek it ⟨none, s⟩ =
      ((it.next s).1, ⟨some (it.next s).1, (it.next s).2⟩) := rfl

theorem if_first_clear (b : Bool) : (if b = true then false else b) = false := by
  cases b <;> rfl

theorem next_primed (it : Iter σ α) (v : Option α) (s : σ) (b : Bool) :
    WithStatus.next it ⟨⟨some v, s⟩, b⟩ =
      (v.map (fun e => (e, ⟨b, ((it.next s).1).isNone⟩)),
       ⟨⟨some (it.next s).1, (it.next s).2⟩, if b = true then false else b⟩) := rfl

theorem next_unprimed (it : Iter σ α) (s : σ) (b : Bool) :
    WithStatus.next it ⟨⟨none, s⟩, b⟩ =
      WithStatus.next it ⟨⟨some (it.next s).1, (it.next s).2⟩, b⟩ := rfl

theorem runFuel_exhaust_marker (it : Iter σ α) (s : σ) (b : Bool) (fuel : Nat) :
    runFuel it fuel ⟨⟨some none, s⟩, b⟩ = [] := by
  cases fuel with
  | zero => rfl
  | succ f => rfl

theorem runFuel_unprimed (it : Iter σ α) (s : σ) (b : Bool) (fuel : Nat) :
    runFuel it fuel ⟨⟨none, s⟩, b⟩ =
      runFuel it fuel ⟨⟨some (it.next s).1, (it.next s).2⟩, b⟩ := by
  cases fuel with
  | zero => rfl
  | succ f => simp only [runFuel, next_unprimed]

theorem listIter_next_nil : (listIter : Iter (List α) α).next [] = (none, []) := rfl

theorem listIter_next_cons (x : α) (xs : List α) :
    (listIter : Iter (List α) α).next (x :: xs) = (some x, xs) := rfl

theorem runFuel_primed (xs : List α) :
    ∀ (x : α) (b : Bool) (fuel : Nat), xs.length < fuel →
      runFuel listIter fuel ⟨⟨some (some x), xs⟩, b⟩ = tagFrom b x xs := by
  induction xs with
  | nil =>
    intro x b fuel h
    obtain ⟨f, rfl⟩ : ∃ f, fuel = f + 1 := ⟨fuel - 1, by omega⟩
    simp [runFuel, next_primed, listIter_next_nil, if_first_clear,
      runFuel_exhaust_marker, tagFrom]
  | cons y ys ih =>
    intro x b fuel h
    obtain ⟨f, rfl⟩ : ∃ f, fuel = f + 1 := ⟨fuel - 1, by omega⟩
    have hf : ys.length < f := by simpa using Nat.lt_of_succ_lt_succ h
    simp [runFuel, next_primed, listIter_next_cons, if_first_clear, tagFrom,
      ih y false f hf]

theorem withStatusList_nil : withStatusList ([] : List α) = [] := rfl

theorem withStatusList_cons (x : α) (t : List α) :
    withStatusList (x :: t) = tagFrom true x t := by
  unfold withStatusList WithStatus.new
  rw [runFuel_unprimed]
  have hstep : (listIter.next (x :: t)).1 = some x ∧ (listIter.next (x :: t)).2 = t :=
    ⟨rfl, rfl⟩
  rw [hstep.1, hstep.2]
  exact runFuel_primed t x true _ (by simp; omega)

theorem tagFrom_map_fst (xs : List α) :
    ∀ (b : Bool) (x : α), (tagFrom b x xs).map Prod.fst = x :: xs := by
  induction xs with
  | nil => intro b x; rfl
  | cons y ys ih => intro b x; simp [tagFrom, ih false y]

theorem tagFrom_length (xs : List α) (b : Bool) (x : α) :
    (tagFrom b x xs).length = xs.length + 1 := by
  have := congrArg List.length (tagFrom_map_fst xs b x)
  simpa using this

theorem tagFrom_getElem? (xs : List α) :
    ∀ (b : Bool) (x : α) (i : Nat),
      ((tagFrom b x xs)[i]?).map Prod.snd =
        if i < xs.length + 1 then
          some ⟨b && decide (i = 0), decide (i = xs.length)⟩
        else none := by
  induction xs with
  | nil =>
    intro b x i
    match i with
    | 0 => simp [tagFrom]
    | i + 1 => simp [tagFrom]
  | cons y ys ih =>
    intro b x i
    match i with
    | 0 => simp [tagFrom]
    | i + 1 =>
      have := ih false y i
      simp only [tagFrom, List.getElem?_cons_succ]
      rw [this]
      by_cases h : i < ys.length + 1
      · simp [h, Nat.succ_lt_succ h]
      · simp [h, fun hc => h (Nat.lt_of_succ_lt_succ hc)]

/-- C1: for a finite input of length n the wrapper yields exactly n pairs
(so nothing for n = 0), and the i-th yielded status (0-based) has
`is_first` true exactly when i = 0 and `is_last` true exactly when
i + 1 = n. -/
theorem withStatus_flag_positions (l : List α) :
    (withStatusList l).length = l.length ∧
    ∀ i : Nat, i < l.length →
      ((withStatusList l)[i]?).map (fun p => p.2.is_first) = some (decide (i = 0)) ∧
      ((withStatusList l)[i]?).map (fun p => p.2.is_last) =
        some (decide (i + 1 = l.length)) := by
  cases l with
  | nil => exact ⟨rfl, fun i h => absurd h (Nat.not_lt_zero i)⟩
  | cons x t =>
    rw [withStatusList_cons]
    refine ⟨by simpa using tagFrom_length t true x, fun i hi => ?_⟩
    have hget := tagFrom_getElem? t true x i
    have hlt : i < t.length + 1 := by simpa using hi
    rw [if_pos hlt] at hget
    have h1 : ((tagFrom true x t)[i]?).map (fun p => p.2.is_first) =
        (((tagFrom true x t)[i]?).map Prod.snd).map Status.is_first := by
      cases (tagFrom true x t)[i]? <;> rfl
    have h2 : ((tagFrom true x t)[i]?).map (fun p => p.2.is_last) =
        (((tagFrom true x t)[i]?).map Prod.snd).map Status.is_last := by
      cases (tagFrom true x t)[i]? <;> rfl
    rw [h1, h2, hget]
    constructor
    · simp [Status.is_first]
    · have hdec : decide (i = t.length) = decide (i + 1 = (x :: t).length) :=
        decide_eq_decide.mpr (by simp only [List.length_cons]; omega)
      simp [Status.is_last, hdec]

theorem withStatus_flag_positions_witness :
    (2 < ([10, 20, 30] : List Nat).length) ∧
    ((withStatusList ([10, 20, 30] : List Nat))[2]?).map (fun p => p.2.is_first) =
      some false ∧
    ((withStatusList ([10, 20, 30] : List Nat))[2]?).map (fun p => p.2.is_last) =
      some true :=
  ⟨by decide,
   by simpa using ((withStatus_flag_positions ([10, 20, 30] : List Nat)).2 2 (by decide)).1,
   by simpa using ((withStatus_flag_positions ([10, 20, 30] : List Nat)).2 2 (by decide)).2⟩

/-- C2: stripping the statuses from the wrapper output recovers the
original sequence: same elements, same order, nothing added or dropped. -/
theorem withStatus_preserves_elements (l : List α) :
    (withStatusList l).map Prod.fst = l := by
  cases l with
  | nil => rfl
  | cons x t => rw [withStatusList_cons, tagFrom_map_fst]

/-- C9: the status queries are the stated pure boolean formulas over the
two stored flags, and no status is simultaneously first-only and
last-only. -/
theorem status_query_formulas :
    ∀ s : Status,
      s.is_first = s.first ∧
      s.is_last = s.last ∧
      s.is_first_only = (s.first && !s.last) ∧
      s.is_last_only = (s.last && !s.first) ∧
      s.is_in_between = (!s.first && !s.last) ∧
      ¬(s.is_first_only = true ∧ s.is_last_only = true) := by
  rintro ⟨f, l⟩
  revert f l
  decide

theorem skip_first_passing (f : τ → τ) (env : τ) :
    SkipFirst.skip_first ⟨false⟩ f env = (⟨false⟩, f env) := rfl

theorem skip_first_suppress (f : τ → τ) (env : τ) :
    SkipFirst.skip_first ⟨true⟩ f env = (⟨false⟩, env) := rfl

theorem runSkips_passing (fs : List (τ → τ)) :
    ∀ env : τ, runSkips ⟨false⟩ fs env = (⟨false⟩, applyAll fs env) := by
  induction fs with
  | nil => intro env; rfl
  | cons f rest ih =>
    intro env
    simp [runSkips, skip_first_passing, applyAll, ih]

theorem runTwo_general (calls : List (Bool × (τ → τ))) :
    ∀ (ga gb : Bool) (env : τ),
      (runTwo ⟨ga⟩ ⟨gb⟩ calls env).2.2 =
        applyAll
          (((if ga then dropFirstTagged true else id)
            ((if gb then dropFirstTagged false else id) calls)).map Prod.snd) env := by
  induction calls with
  | nil => intro ga gb env; cases ga <;> cases gb <;> rfl
  | cons c rest ih =>
    obtain ⟨tag, f⟩ := c
    intro ga gb env
    cases tag <;> cases ga <;> cases gb <;>
      simp [runTwo, SkipFirst.skip_first, dropFirstTagged, applyAll, ih]

/-- C3: on one gate, `skip_first` with effects `e1..ek` runs exactly
`e2..ek`, in call order, never `e1`; and on two independent gates an
interleaved call sequence runs every effect except the first call of each
gate, in call order. -/
theorem skip_first_runs_all_but_first (fs : List (τ → τ)) (env : τ)
    (calls : List (Bool × (τ → τ))) (env2 : τ) :
    runSkips SkipFirst.new fs env = (⟨fs.isEmpty⟩, applyAll (fs.drop 1) env) ∧
    (runTwo SkipFirst.new SkipFirst.new calls env2).2.2 =
      applyAll ((dropFirstTagged true (dropFirstTagged false calls)).map Prod.snd) env2 := by
  constructor
  · cases fs with
    | nil => rfl
    | cons f rest =>
      show runSkips ⟨false⟩ rest env = _
      simp [runSkips_passing, List.isEmpty]
  · simpa using runTwo_general calls true true env2

/-- C5: the Suppressing-to-PassingThrough transition of the gate fires
unconditionally on the first call — the callable is not even invoked, so
no raised error can interfere — the gate stays in PassingThrough after
every call, and on later calls the result of the callable (including an error)
propagates unmodified while the flag stays flipped. -/
theorem skip_first_error_semantics :
    ∀ (g : SkipFirst) (f : τ → Except ε τ) (env : τ),
      (g.first = true →
        SkipFirst.skip_first_exc g f env = (⟨false⟩, Except.ok env)) ∧
      (g.first = false →
        SkipFirst.skip_first_exc g f env = (g, f env)) ∧
      (SkipFirst.skip_first_exc g f env).1.first = false := by
  rintro ⟨gf⟩ f env
  cases gf <;> simp [SkipFirst.skip_first_exc]

theorem skip_first_error_semantics_witness :
    SkipFirst.new.first = true ∧
    SkipFirst.skip_first_exc SkipFirst.new
      (fun _ : Nat => (Except.error "boom" : Except String Nat)) 0 =
      (⟨false⟩, Except.ok 0) ∧
    SkipFirst.skip_first_exc ⟨false⟩
      (fun _ : Nat => (Except.error "boom" : Except String Nat)) 0 =
      (⟨false⟩, Except.error "boom") :=
  ⟨rfl,
   (skip_first_error_semantics SkipFirst.new
     (fun _ : Nat => (Except.error "boom" : Except String Nat)) 0).1 rfl,
   by
    simpa using (skip_first_error_semantics (⟨false⟩ : SkipFirst)
      (fun _ : Nat => (Except.error "boom" : Except String Nat)) 0).2.1 rfl⟩

theorem bufferInvariant_primed (s : List α) :
    bufferInvariant
      (⟨some ((listIter : Iter (List α) α).next s).1,
        ((listIter : Iter (List α) α).next s).2⟩ : PeekState (List α) α) := by
  cases s <;> exact trivial

/-- C7 counterexample: at construction on the one-element input `[1]` the
look-ahead buffer is unprimed even though an unconsumed element exists, so
construction does not establish the claimed invariant. -/
theorem buffer_invariant_fails_at_construction :
    ¬ bufferInvariant ((WithStatus.new [1] : WithStatus (List Nat) Nat).iter) :=
  fun h => h

/-- C7 amended: construction leaves the look-ahead buffer unprimed (it is
primed only by the first `next` call), and after every `next` call the
buffer holds the next unconsumed element if one exists and the exhaustion
marker otherwise. -/
theorem buffer_invariant_after_next :
    (∀ l : List α, (WithStatus.new l : WithStatus (List α) α).iter.peeked = none) ∧
    ∀ w : WithStatus (List α) α,
      bufferInvariant ((WithStatus.next listIter w).2.iter) := by
  refine ⟨fun l => rfl, fun w => ?_⟩
  obtain ⟨⟨pk, st⟩, b⟩ := w
  cases pk with
  | some v =>
    simp only [next_primed]
    exact bufferInvariant_primed st
  | none =>
    simp only [next_unprimed, next_primed]
    exact bufferInvariant_primed _

theorem listIter_fused : Fused (listIter : Iter (List α) α) := by
  intro s h
  cases s with
  | nil => rfl
  | cons x xs => simp [listIter_next_cons] at h

theorem fused_none_step (it : Iter σ α) (hf : Fused it) (w : WithStatus σ α)
    (hinv : peekedInv it w.iter) (hnone : (WithStatus.next it w).1 = none) :
    (WithStatus.next it (WithStatus.next it w).2).1 = none ∧
    peekedInv it (WithStatus.next it w).2.iter := by
  obtain ⟨⟨pk, st⟩, b⟩ := w
  cases pk with
  | some v =>
    rw [next_primed] at hnone
    have hv : v = none := by
      cases v with
      | none => rfl
      | some x => simp at hnone
    subst hv
    have hst : (it.next st).1 = none := hinv rfl
    constructor
    · simp only [next_primed]
      rw [hst]
      simp [next_primed]
    · intro hpk
      simp only [next_primed] at hpk ⊢
      exact hf st hst
  | none =>
    rw [next_unprimed, next_primed] at hnone
    have hst : (it.next st).1 = none := by
      cases hcase : (it.next st).1 with
      | none => rfl
      | some x => rw [hcase] at hnone; simp at hnone
    have h1 : (it.next (it.next st).2).1 = none := hf st hst
    constructor
    · simp only [next_unprimed, next_primed]
      rw [h1]
      simp [next_primed]
    · intro hpk
      simp only [next_unprimed, next_primed] at hpk ⊢
      exact hf (it.next st).2 h1

theorem fused_none_chain (it : Iter σ α) (hf : Fused it) (w : WithStatus σ α)
    (hinv : peekedInv it w.iter) (hnone : (WithStatus.next it w).1 = none) :
    ∀ k : Nat,
      (WithStatus.next it (nthState it w k)).1 = none ∧
      peekedInv it (nthState it w k).iter := by
  intro k
  induction k with
  | zero => exact ⟨hnone, hinv⟩
  | succ n ih =>
    have step := fused_none_step it hf (nthState it w n) ih.2 ih.1
    exact ⟨step.1, step.2⟩

/-- C4 counterexample: over the non-fused producer `resurrecting` the
first wrapper call returns exhausted, yet the second call yields the
element `7` — so idempotence of exhaustion does not hold for every
underlying producer. -/
theorem exhaustion_not_idempotent_unfused :
    (WithStatus.next resurrecting (WithStatus.new 0)).1 = none ∧
    (WithStatus.next resurrecting
        (WithStatus.next resurrecting (WithStatus.new 0)).2).1 =
      some (7, ⟨false, true⟩) := by
  constructor <;> rfl

/-- C4 amended: for every FUSED underlying producer (one that keeps
answering exhausted once it has), once the wrapper has returned exhausted
every subsequent call returns exhausted as well; the hypothesis
`peekedInv` holds at construction and at every reachable state. -/
theorem exhaustion_idempotent_fused (it : Iter σ α) (hf : Fused it)
    (w : WithStatus σ α) (hinv : peekedInv it w.iter)
    (hnone : (WithStatus.next it w).1 = none) :
    ∀ k : Nat, (WithStatus.next it (nthState it w k)).1 = none :=
  fun k => (fused_none_chain it hf w hinv hnone k).1

theorem exhaustion_idempotent_fused_witness :
    (WithStatus.next listIter
      (nthState listIter (WithStatus.new ([] : List Nat)) 2)).1 = none :=
  exhaustion_idempotent_fused listIter listIter_fused
    (WithStatus.new ([] : List Nat)) (fun h => nomatch h) rfl 2

/-- C10: every `next` call pulls the underlying iterator afresh — twice
when the look-ahead buffer is unprimed, once otherwise, including calls
made after exhaustion — and consequently the no-resurrection guarantee
holds exactly for fused underlying iterators: after the first
exhausted answer every later call answers exhausted. -/
theorem fresh_pull_each_call_and_fused_guarantee (σ α : Type) :
    (∀ (it : Iter σ α) (w : WithStatus (σ × Nat) α),
      (WithStatus.next (counted it) w).2.iter.state.2 =
        w.iter.state.2 + (match w.iter.peeked with | none => 2 | some _ => 1)) ∧
    (∀ (it : Iter σ α) (w : WithStatus σ α), Fused it → peekedInv it w.iter →
      (WithStatus.next it w).1 = none →
      ∀ k : Nat, (WithStatus.next it (nthState it w k)).1 = none) := by
  constructor
  · intro it w
    obtain ⟨⟨pk, s, n⟩, b⟩ := w
    cases pk <;> rfl
  · intro it w hf hinv hnone k
    exact (fused_none_chain it hf w hinv hnone k).1

theorem fresh_pull_each_call_and_fused_guarantee_witness :
    (WithStatus.next (counted listIter)
      (WithStatus.new (([5] : List Nat), 0))).2.iter.state.2 = 2 ∧
    (WithStatus.next listIter
      (nthState listIter (WithStatus.new ([] : List Nat)) 1)).1 = none :=
  ⟨by
    simpa using (fresh_pull_each_call_and_fused_guarantee (List Nat) Nat).1
      listIter (WithStatus.new (([5] : List Nat), 0)),
   (fresh_pull_each_call_and_fused_guarantee (List Nat) Nat).2
     listIter (WithStatus.new ([] : List Nat)) listIter_fused
     (fun h => nomatch h) rfl 1⟩

theorem listIter_next_eq (s : List α) :
    (listIter : Iter (List α) α).next s = (s.head?, s.tail) := by
  cases s <;> rfl

theorem counted_list_next (s : List α) (n : Nat) :
    (counted (listIter : Iter (List α) α)).next (s, n) = (s.head?, (s.tail, n + 1)) := by
  cases s <;> rfl

theorem nthState_counted_char (l : List α) :
    ∀ k : Nat, 1 ≤ k →
      nthState (counted listIter) (WithStatus.new (l, 0)) k =
        ⟨⟨some ((l.drop k).head?), (l.drop (k + 1), k + 1)⟩, false⟩ := by
  intro k
  induction k with
  | zero => intro h; exact absurd h (by omega)
  | succ n ih =>
    intro _
    rcases Nat.eq_zero_or_pos n with hn | hn
    · subst hn
      show (WithStatus.next (counted listIter) (WithStatus.new (l, 0))).2 = _
      rw [show (WithStatus.new (l, 0) : WithStatus (List α × Nat) α) =
            ⟨⟨none, (l, 0)⟩, true⟩ from rfl]
      rw [next_unprimed]
      simp only [counted_list_next]
      rw [next_primed]
      simp [counted_list_next, ← List.drop_one, List.tail_drop]
    · show (WithStatus.next (counted listIter)
        (nthState (counted listIter) (WithStatus.new (l, 0)) n)).2 = _
      rw [ih hn, next_primed]
      simp [counted_list_next, List.tail_drop]

theorem nthState_list_char (l : List α) :
    ∀ k : Nat, 1 ≤ k →
      nthState listIter (WithStatus.new l) k =
        ⟨⟨some ((l.drop k).head?), l.drop (k + 1)⟩, false⟩ := by
  intro k
  induction k with
  | zero => intro h; exact absurd h (by omega)
  | succ n ih =>
    intro _
    rcases Nat.eq_zero_or_pos n with hn | hn
    · subst hn
      show (WithStatus.next listIter (WithStatus.new l)).2 = _
      rw [show (WithStatus.new l : WithStatus (List α) α) =
            ⟨⟨none, l⟩, true⟩ from rfl]
      rw [next_unprimed]
      simp only [listIter_next_eq]
      rw [next_primed]
      simp [listIter_next_eq, ← List.drop_one, List.tail_drop]
    · show (WithStatus.next listIter (nthState listIter (WithStatus.new l) n)).2 = _
      rw [ih hn, next_primed]
      simp [listIter_next_eq, List.tail_drop]

theorem withStatusList_length (l : List α) :
    (withStatusList l).length = l.length := by
  cases l with
  | nil => rfl
  | cons x t =>
    rw [withStatusList_cons]
    simpa using tagFrom_length t true x

/-- C8: wrapping pulls nothing from the underlying producer — after
construction the instrumented pull counter is still 0 and the buffer is
unprimed — and during iteration, after the call handing back element `k`
(1-based), the producer has already been pulled `k + 1` times and the
buffer already holds element `k + 1` (or the exhaustion marker), i.e.
the pull of element `k + 1` happens before element `k` reaches the
caller. -/
theorem wrap_pulls_nothing_then_one_ahead (l : List α) (k : Nat) :
    ((WithStatus.new (l, 0) : WithStatus (List α × Nat) α).iter.state = (l, 0) ∧
     (WithStatus.new (l, 0) : WithStatus (List α × Nat) α).iter.peeked = none) ∧
    (1 ≤ k → k ≤ l.length →
      nthState (counted listIter) (WithStatus.new (l, 0)) k =
        ⟨⟨some ((l.drop k).head?), (l.drop (k + 1), k + 1)⟩, false⟩) :=
  ⟨⟨rfl, rfl⟩, fun h1 _ => nthState_counted_char l k h1⟩

theorem wrap_pulls_nothing_then_one_ahead_witness :
    ((WithStatus.new (([10, 20, 30] : List Nat), 0)
        : WithStatus (List Nat × Nat) Nat).iter.state = ([10, 20, 30], 0) ∧
     (WithStatus.new (([10, 20, 30] : List Nat), 0)
        : WithStatus (List Nat × Nat) Nat).iter.peeked = none) ∧
    nthState (counted listIter) (WithStatus.new (([10, 20, 30] : List Nat), 0)) 2 =
      ⟨⟨some (some 30), ([], 3)⟩, false⟩ :=
  ⟨(wrap_pulls_nothing_then_one_ahead ([10, 20, 30] : List Nat) 2).1,
   by simpa using
     (wrap_pulls_nothing_then_one_ahead ([10, 20, 30] : List Nat) 2).2
       (by decide) (by decide)⟩

/-- C6: at every reachable state the wrapper `size_hint` is the inner
peekable report passed through unchanged, and over the exact list
producer it reports exactly the number of pairs still to be yielded
(`l.length - k` after `k` calls), with `len` agreeing. -/
theorem size_hint_passthrough_exact (l : List α) (k : Nat) (hk : k ≤ l.length) :
    WithStatus.sizeHint listHint (nthState listIter (WithStatus.new l) k) =
      peekSizeHint listHint (nthState listIter (WithStatus.new l) k).iter ∧
    WithStatus.sizeHint listHint (nthState listIter (WithStatus.new l) k) =
      (l.length - k, some (l.length - k)) ∧
    WithStatus.len listHint (nthState listIter (WithStatus.new l) k) =
      l.length - k ∧
    (runFuel listIter (l.length + 1)
        (nthState listIter (WithStatus.new l) k)).length = l.length - k := by
  rcases Nat.eq_zero_or_pos k with hk0 | hk1
  · subst hk0
    refine ⟨rfl, ?_, ?_, ?_⟩
    · simp [nthState, WithStatus.new, WithStatus.sizeHint, peekSizeHint, listHint]
    · simp [nthState, WithStatus.new, WithStatus.len, peekSizeHint, listHint]
    · show (withStatusList l).length = l.length - 0
      simp [withStatusList_length]
  · rw [nthState_list_char l k hk1]
    cases hdk : l.drop k with
    | nil =>
      have hlen : l.length ≤ k := by
        have hd := congrArg List.length hdk
        simp [List.length_drop] at hd
        omega
      have hz : l.length - k = 0 := by omega
      refine ⟨rfl, ?_, ?_, ?_⟩
      · simp [WithStatus.sizeHint, peekSizeHint, hz]
      · simp [WithStatus.len, peekSizeHint, hz]
      · simp [runFuel_exhaust_marker, hz]
    | cons e rest =>
      have htail : l.drop (k + 1) = rest := by
        have h1 : (l.drop k).tail = l.drop (k + 1) := List.tail_drop l k
        rw [hdk] at h1
        exact h1.symm
      have hL : rest.length + 1 = l.length - k := by
        have hd := congrArg List.length hdk
        simp [List.length_drop] at hd
        omega
      refine ⟨rfl, ?_, ?_, ?_⟩
      · simp [WithStatus.sizeHint, peekSizeHint, listHint, htail, hL]
      · simp [WithStatus.len, peekSizeHint, listHint, htail, hL]
      · have hlt : (l.drop (k + 1)).length < l.length + 1 := by
          simp [List.length_drop]
          omega
        simp only [List.head?_cons]
        rw [runFuel_primed (l.drop (k + 1)) e false (l.length + 1) hlt,
          tagFrom_length, htail]
        exact hL

theorem size_hint_passthrough_exact_witness :
    1 ≤ ([1, 2, 3] : List Nat).length ∧
    WithStatus.sizeHint listHint
      (nthState listIter (WithStatus.new ([1, 2, 3] : List Nat)) 1) = (2, some 2) ∧
    WithStatus.len listHint
      (nthState listIter (WithStatus.new ([1, 2, 3] : List Nat)) 1) = 2 :=
  ⟨by decide,
   by simpa using
     (size_hint_passthrough_exact ([1, 2, 3] : List Nat) 1 (by decide)).2.1,
   by simpa using
     (size_hint_passthrough_exact ([1, 2, 3] : List Nat) 1 (by decide)).2.2.1⟩
